import Mathlib

namespace EstimatePI

/-- Python exception kinds that the modelled code can raise, plus the
spec's `InvalidArgument` error kind for comparison. -/
inductive PyError where
  | zeroDivisionError
  | valueError
  | typeError
  | invalidArgument
deriving DecidableEq, Repr

/-- A Python float result: either an ordinary (exactly represented) value or NaN,
which `np.average` produces on an empty list. -/
inductive PyFloat where
  | val (q : ℚ)
  | nan
deriving DecidableEq, Repr

def sqNorms (s : ℕ → ℚ) (m : ℕ) : List ℚ :=
  List.zipWith (fun x y => x ^ 2 + y ^ 2)
    ((List.range m).map s) ((List.range m).map fun i => s (m + i))

def countInside (s : ℕ → ℚ) (m : ℕ) : ℕ :=
  ((sqNorms s m).filter fun v => decide (v ≤ 1)).length

def chunkEstimate (s : ℕ → ℚ) (m : ℕ) : ℚ :=
  (countInside s m : ℚ) / (m : ℚ) * 4

def _monte_carlo (s : ℕ → ℚ) (n : ℤ) : Except PyError ℚ :=
  if n < 0 then .error .valueError
  else if n = 0 then .error .zeroDivisionError
  else .ok (chunkEstimate s n.toNat)

/-- mean of the collected chunk results, line 73: `np.average([...])`.
On an empty list `np.average` returns NaN (with a runtime warning), otherwise
the arithmetic mean. -/
def average (l : List ℚ) : PyFloat :=
  if l.length = 0 then .nan else .val (l.sum / (l.length : ℚ))

/-- arithmetic mean of a nonempty list of chunk estimates, as the spec
describes step 4 of the aggregator. -/
def mean (l : List ℚ) : ℚ := l.sum / (l.length : ℚ)

/-- line 73: `[future.result() for future in futures]` — collects the chunk
results in submission order; the first chunk whose task raised re-raises
that exception here. -/
def collectResults : List (Except PyError ℚ) → Except PyError (List ℚ)
  | [] => .ok []
  | .error e :: _ => .error e
  | .ok q :: rest =>
    match collectResults rest with
    | .error e => .error e
    | .ok qs => .ok (q :: qs)

/-- line 66: `n0 = n if n >= num_limit else round(n, -math.log10(num_limit))`.
In the else branch, `math.log10(num_limit)` raises ValueError when
`num_limit <= 0`; otherwise `round` raises TypeError because its ndigits
argument `-math.log10(num_limit)` is a float, which `round` rejects for an
int ndigits position. -/
def n0_guard (n num_limit : ℤ) : Except PyError ℤ :=
  if n ≥ num_limit then .ok n
  else if num_limit ≤ 0 then .error .valueError
  else .error .typeError

/-- Python integer floor division `a // b`; raises ZeroDivisionError on `b = 0`. -/
def pyFloorDiv (a b : ℤ) : Except PyError ℤ :=
  if b = 0 then .error .zeroDivisionError else .ok (Int.fdiv a b)

/-- src/main.py lines 47-73, `monte_carlo(n, num_limit)`.
`rnd i` is the random stream assigned to the i-th dispatched chunk task
(the direct small-`n` call uses `rnd 0`); Python's implicit global numpy
generator is modelled by this explicit random-source assignment. -/
def monte_carlo (rnd : ℕ → ℕ → ℚ) (n num_limit : ℤ) : Except PyError PyFloat :=
  if n ≤ num_limit then Except.map PyFloat.val (_monte_carlo (rnd 0) n)
  else
    match n0_guard n num_limit with
    | .error e => .error e
    | .ok n0 =>
      match pyFloorDiv n0 num_limit with
      | .error e => .error e
      | .ok n_range =>
        match collectResults ((List.range n_range.toNat).map
            fun i => _monte_carlo (rnd i) num_limit) with
        | .error e => .error e
        | .ok results => .ok (average results)

/-- a concrete random-source assignment (all samples 0), used by witnesses. -/
def rnd0 : ℕ → ℕ → ℚ := fun _ _ => 0

/-- a concrete single random stream (all samples 0), used by witnesses. -/
def s0 : ℕ → ℚ := fun _ => 0

lemma length_sqNorms (s : ℕ → ℚ) (m : ℕ) : (sqNorms s m).length = m := by
  simp [sqNorms]

lemma countInside_le (s : ℕ → ℚ) (m : ℕ) : countInside s m ≤ m := by
  have h := List.length_filter_le (fun v => decide (v ≤ 1)) (sqNorms s m)
  simpa [countInside, length_sqNorms] using h

lemma chunkEstimate_nonneg (s : ℕ → ℚ) (m : ℕ) : 0 ≤ chunkEstimate s m := by
  unfold chunkEstimate
  positivity

lemma chunkEstimate_le_four (s : ℕ → ℚ) (m : ℕ) (h : 1 ≤ m) :
    chunkEstimate s m ≤ 4 := by
  unfold chunkEstimate
  have hm : (0 : ℚ) < (m : ℚ) := by exact_mod_cast h
  have hk : (countInside s m : ℚ) ≤ (m : ℚ) := by
    exact_mod_cast countInside_le s m
  have h1 : (countInside s m : ℚ) / (m : ℚ) ≤ 1 := (div_le_one hm).mpr hk
  nlinarith

lemma _monte_carlo_pos (s : ℕ → ℚ) (n : ℤ) (h : 1 ≤ n) :
    _monte_carlo s n = .ok (chunkEstimate s n.toNat) := by
  unfold _monte_carlo
  rw [if_neg (by omega), if_neg (by omega)]

lemma collectResults_map_ok (f : ℕ → ℚ) (l : List ℕ) :
    collectResults (l.map fun i => Except.ok (f i)) = .ok (l.map f) := by
  induction l with
  | nil => rfl
  | cons a t ih => simp [collectResults, ih]

lemma monte_carlo_chunked (rnd : ℕ → ℕ → ℚ) (n limit : ℤ)
    (h1 : 0 < limit) (h2 : limit < n) :
    monte_carlo rnd n limit =
      .ok (average ((List.range (Int.fdiv n limit).toNat).map
        fun i => chunkEstimate (rnd i) limit.toNat)) := by
  unfold monte_carlo
  rw [if_neg (by omega)]
  have hg : n0_guard n limit = .ok n := by
    unfold n0_guard; rw [if_pos (by omega)]
  have hd : pyFloorDiv n limit = .ok (Int.fdiv n limit) := by
    unfold pyFloorDiv; rw [if_neg (by omega)]
  rw [hg]
  dsimp only
  rw [hd]
  dsimp only
  have hc : ((List.range (Int.fdiv n limit).toNat).map
        fun i => _monte_carlo (rnd i) limit)
      = (List.range (Int.fdiv n limit).toNat).map
        fun i => Except.ok (chunkEstimate (rnd i) limit.toNat) := by
    exact List.map_congr_left fun i _ => _monte_carlo_pos (rnd i) limit (by omega)
  rw [hc, collectResults_map_ok]

lemma fdiv_pos_of_lt (n limit : ℤ) (h1 : 0 < limit) (h2 : limit < n) :
    1 ≤ Int.fdiv n limit := by
  rw [Int.fdiv_eq_ediv _ (le_of_lt h1)]
  rw [Int.le_ediv_iff_mul_le h1]
  omega

lemma mean_mem_bounds (l : List ℚ) (hne : l ≠ [])
    (hlow : ∀ q ∈ l, 0 ≤ q) (hhigh : ∀ q ∈ l, q ≤ 4) :
    0 ≤ mean l ∧ mean l ≤ 4 := by
  have hlen : (0 : ℚ) < (l.length : ℚ) := by
    have := List.length_pos.mpr hne
    exact_mod_cast this
  constructor
  · have hsum : 0 ≤ l.sum := by
      have := List.card_nsmul_le_sum l 0 hlow
      simpa using this
    exact div_nonneg hsum (le_of_lt hlen)
  · have hsum : l.sum ≤ (l.length : ℚ) * 4 := by
      have := List.sum_le_card_nsmul l 4 hhigh
      simpa [nsmul_eq_mul] using this
    rw [mean, div_le_iff₀ hlen]
    linarith

lemma average_eq_mean (l : List ℚ) (hne : l ≠ []) :
    average l = .val (mean l) := by
  unfold average mean
  rw [if_neg (by simpa [List.length_eq_zero] using hne)]

lemma mean_singleton (x : ℚ) : mean [x] = x := by
  unfold mean
  rw [List.sum_cons, List.sum_nil, add_zero, List.length_cons, List.length_nil]
  norm_num

lemma _monte_carlo_ne_typeError (s : ℕ → ℚ) (k : ℤ) :
    _monte_carlo s k ≠ .error PyError.typeError := by
  unfold _monte_carlo
  split
  · simp
  · split <;> simp

lemma collectResults_ne_typeError (l : List (Except PyError ℚ))
    (h : ∀ x ∈ l, x ≠ .error PyError.typeError) :
    collectResults l ≠ .error PyError.typeError := by
  induction l with
  | nil => simp [collectResults]
  | cons a t ih =>
    cases a with
    | error e =>
      have ha : Except.error e ≠ (.error PyError.typeError : Except PyError ℚ) :=
        h _ (List.mem_cons_self _ _)
      simpa [collectResults] using ha
    | ok q =>
      have ht := ih fun x hx => h x (List.mem_cons_of_mem _ hx)
      cases hc : collectResults t with
      | error e =>
        rw [hc] at ht
        simpa [collectResults, hc] using ht
      | ok qs => simp [collectResults, hc]

lemma monte_carlo_ne_typeError (rnd : ℕ → ℕ → ℚ) (n limit : ℤ) :
    monte_carlo rnd n limit ≠ .error PyError.typeError := by
  unfold monte_carlo
  by_cases h : n ≤ limit
  · rw [if_pos h]
    have hm := _monte_carlo_ne_typeError (rnd 0) n
    cases he : _monte_carlo (rnd 0) n with
    | error e =>
      rw [he] at hm
      simpa [Except.map] using hm
    | ok q => simp [Except.map]
  · rw [if_neg h]
    have hg : n0_guard n limit = .ok n := by
      unfold n0_guard; rw [if_pos (by omega)]
    rw [hg]
    dsimp only
    by_cases hz : limit = 0
    · subst hz
      have hd : pyFloorDiv n 0 = .error .zeroDivisionError := by
        unfold pyFloorDiv; rw [if_pos rfl]
      rw [hd]
      simp
    · have hd : pyFloorDiv n limit = .ok (Int.fdiv n limit) := by
        unfold pyFloorDiv; rw [if_neg hz]
      rw [hd]
      dsimp only
      have hcol := collectResults_ne_typeError
        ((List.range ((Int.fdiv n limit).toNat)).map fun i => _monte_carlo (rnd i) limit)
        (by
          intro x hx
          obtain ⟨i, _, rfl⟩ := List.mem_map.mp hx
          exact _monte_carlo_ne_typeError (rnd i) limit)
      cases hc : collectResults
          ((List.range ((Int.fdiv n limit).toNat)).map fun i => _monte_carlo (rnd i) limit) with
      | error e =>
        rw [hc] at hcol
        simpa using hcol
      | ok rs => simp

/-- C1: for a total count `n` that is a multiple of `limit` with
`n > limit > 0`, `monte_carlo` dispatches exactly `n / limit` chunk tasks,
each an `_monte_carlo` call requesting exactly `limit` samples, and returns
the arithmetic mean of those per-chunk estimates under the given
random-source assignment. -/
theorem C1_chunked_mean (rnd : ℕ → ℕ → ℚ) (n limit : ℤ)
    (h1 : 0 < limit) (h2 : limit < n) (_h3 : limit ∣ n) :
    monte_carlo rnd n limit =
      .ok (.val (mean ((List.range ((n / limit).toNat)).map
        fun i => chunkEstimate (rnd i) limit.toNat))) ∧
    ∀ i, _monte_carlo (rnd i) limit = .ok (chunkEstimate (rnd i) limit.toNat) := by
  have hfd : Int.fdiv n limit = n / limit := Int.fdiv_eq_ediv _ (le_of_lt h1)
  have h := monte_carlo_chunked rnd n limit h1 h2
  rw [hfd] at h
  have hk : 1 ≤ (n / limit).toNat := by
    have h1' := fdiv_pos_of_lt n limit h1 h2
    rw [hfd] at h1'
    omega
  have hne : ((List.range ((n / limit).toNat)).map
      fun i => chunkEstimate (rnd i) limit.toNat) ≠ [] := by
    simp only [ne_eq, List.map_eq_nil_iff, List.range_eq_nil]
    omega
  rw [average_eq_mean _ hne] at h
  exact ⟨h, fun i => _monte_carlo_pos (rnd i) limit (by omega)⟩

/-- witness for C1 at `rnd0`, `n = 2`, `limit = 1`. -/
theorem C1_chunked_mean_witness :
    ((0:ℤ) < 1 ∧ (1:ℤ) < 2 ∧ (1:ℤ) ∣ 2) ∧
    (monte_carlo rnd0 2 1 =
      .ok (.val (mean ((List.range (((2:ℤ) / 1).toNat)).map
        fun i => chunkEstimate (rnd0 i) (1:ℤ).toNat))) ∧
    ∀ i, _monte_carlo (rnd0 i) 1 = .ok (chunkEstimate (rnd0 i) (1:ℤ).toNat)) :=
  ⟨⟨by decide, by decide, one_dvd 2⟩,
    C1_chunked_mean rnd0 2 1 (by decide) (by decide) (one_dvd 2)⟩

/-- C2: for every `n > limit > 0` the aggregator uses
`chunk_count = n // limit` (Python floor division, embedded as `Int.fdiv`),
discarding any remainder; concretely at `n = 1500000`, `limit = 1000000`
the chunk count is 1 and a single chunk of exactly 1000000 samples is
dispatched, whose estimate is returned as the (one-element) average. -/
theorem C2_truncating_division (rnd : ℕ → ℕ → ℚ) (n limit : ℤ)
    (h1 : 0 < limit) (h2 : limit < n) :
    monte_carlo rnd n limit =
      .ok (average ((List.range ((Int.fdiv n limit).toNat)).map
        fun i => chunkEstimate (rnd i) limit.toNat)) ∧
    Int.fdiv 1500000 1000000 = 1 ∧
    monte_carlo rnd 1500000 1000000 = .ok (.val (chunkEstimate (rnd 0) 1000000)) := by
  refine ⟨monte_carlo_chunked rnd n limit h1 h2, by decide, ?_⟩
  have h := monte_carlo_chunked rnd 1500000 1000000 (by norm_num) (by norm_num)
  have hfd : Int.fdiv 1500000 1000000 = 1 := by decide
  rw [hfd] at h
  rw [show List.range (Int.toNat 1) = [0] from rfl,
    show Int.toNat 1000000 = 1000000 from rfl,
    show ([0].map fun i => chunkEstimate (rnd i) 1000000)
      = [chunkEstimate (rnd 0) 1000000] from rfl,
    average_eq_mean _ (List.cons_ne_nil _ _), mean_singleton] at h
  exact h

/-- witness for C2 at `rnd0`, `n = 3`, `limit = 1`. -/
theorem C2_truncating_division_witness :
    ((0:ℤ) < 1 ∧ (1:ℤ) < 3) ∧
    (monte_carlo rnd0 3 1 =
      .ok (average ((List.range ((Int.fdiv 3 1).toNat)).map
        fun i => chunkEstimate (rnd0 i) (1:ℤ).toNat)) ∧
    Int.fdiv 1500000 1000000 = 1 ∧
    monte_carlo rnd0 1500000 1000000 = .ok (.val (chunkEstimate (rnd0 0) 1000000))) :=
  ⟨⟨by decide, by decide⟩, C2_truncating_division rnd0 3 1 (by decide) (by decide)⟩

/-- C3: for `1 <= n <= limit`, `monte_carlo` delegates directly to
`_monte_carlo` with argument `n` (drawing from the same random source,
`rnd 0`) and returns its result unchanged. -/
theorem C3_small_n_delegates (rnd : ℕ → ℕ → ℚ) (n limit : ℤ)
    (h1 : 1 ≤ n) (h2 : n ≤ limit) :
    monte_carlo rnd n limit = Except.map PyFloat.val (_monte_carlo (rnd 0) n) ∧
    monte_carlo rnd n limit = .ok (.val (chunkEstimate (rnd 0) n.toNat)) := by
  have hdel : monte_carlo rnd n limit = Except.map PyFloat.val (_monte_carlo (rnd 0) n) := by
    unfold monte_carlo
    rw [if_pos h2]
  refine ⟨hdel, ?_⟩
  rw [hdel, _monte_carlo_pos _ _ h1]
  rfl

/-- witness for C3 at `rnd0`, `n = 2`, `limit = 5`. -/
theorem C3_small_n_delegates_witness :
    ((1:ℤ) ≤ 2 ∧ (2:ℤ) ≤ 5) ∧
    (monte_carlo rnd0 2 5 = Except.map PyFloat.val (_monte_carlo (rnd0 0) 2) ∧
    monte_carlo rnd0 2 5 = .ok (.val (chunkEstimate (rnd0 0) (2:ℤ).toNat))) :=
  ⟨⟨by decide, by decide⟩, C3_small_n_delegates rnd0 2 5 (by decide) (by decide)⟩

/-- C4: for every `n >= 1`, `_monte_carlo s n` succeeds with the estimate
`(countInside / n) * 4`, where `countInside` counts the sampled points with
`x^2 + y^2 <= 1` (inclusive boundary), `countInside <= n`, and the result
lies in the closed interval `[0, 4]`. -/
theorem C4_estimate_in_range (s : ℕ → ℚ) (n : ℤ) (h : 1 ≤ n) :
    _monte_carlo s n = .ok (chunkEstimate s n.toNat) ∧
    chunkEstimate s n.toNat = (countInside s n.toNat : ℚ) / (n : ℚ) * 4 ∧
    countInside s n.toNat ≤ n.toNat ∧
    0 ≤ chunkEstimate s n.toNat ∧ chunkEstimate s n.toNat ≤ 4 := by
  have hcast : ((n.toNat : ℕ) : ℚ) = (n : ℚ) := by
    exact_mod_cast Int.toNat_of_nonneg (by omega : (0:ℤ) ≤ n)
  refine ⟨_monte_carlo_pos s n h, ?_, countInside_le s n.toNat,
    chunkEstimate_nonneg s n.toNat, chunkEstimate_le_four s n.toNat (by omega)⟩
  rw [chunkEstimate, hcast]

/-- witness for C4 at `s0`, `n = 3`. -/
theorem C4_estimate_in_range_witness :
    (1:ℤ) ≤ 3 ∧
    (_monte_carlo s0 3 = .ok (chunkEstimate s0 (3:ℤ).toNat) ∧
    chunkEstimate s0 (3:ℤ).toNat = (countInside s0 (3:ℤ).toNat : ℚ) / ((3:ℤ) : ℚ) * 4 ∧
    countInside s0 (3:ℤ).toNat ≤ (3:ℤ).toNat ∧
    0 ≤ chunkEstimate s0 (3:ℤ).toNat ∧ chunkEstimate s0 (3:ℤ).toNat ≤ 4) :=
  ⟨by decide, C4_estimate_in_range s0 3 (by decide)⟩

/-- C5 counterexample: at the concrete invalid inputs the code does not
raise the spec's `InvalidArgument` error kind. With a negative chunk limit
(`monte_carlo rnd0 1 (-1)`) the call returns a value, NaN, instead of
failing; with a zero sample count it fails with ZeroDivisionError, and with
a negative sample count with ValueError — different error kinds. -/
theorem C5_counterexample :
    monte_carlo rnd0 1 (-1) = .ok PyFloat.nan ∧
    monte_carlo rnd0 0 2 = .error PyError.zeroDivisionError ∧
    monte_carlo rnd0 (-3) 2 = .error PyError.valueError ∧
    PyError.zeroDivisionError ≠ PyError.invalidArgument ∧
    PyError.valueError ≠ PyError.invalidArgument := by
  refine ⟨rfl, rfl, rfl, by decide, by decide⟩

/-- C5 amended: a zero or negative sample count makes the call fail, but
with Python's ZeroDivisionError (for `n = 0`) or ValueError (for `n < 0`),
not a dedicated `InvalidArgument`; a zero chunk limit fails with
ZeroDivisionError at the `n // limit` step; a negative chunk limit with
`n >= 1` does not fail at all but returns NaN. -/
theorem C5_invalid_inputs (rnd : ℕ → ℕ → ℚ) (n limit : ℤ) :
    (1 ≤ limit → n ≤ 0 → monte_carlo rnd n limit =
      .error (if n = 0 then PyError.zeroDivisionError else PyError.valueError)) ∧
    (1 ≤ n → monte_carlo rnd n 0 = .error PyError.zeroDivisionError) ∧
    (1 ≤ n → limit < 0 → monte_carlo rnd n limit = .ok PyFloat.nan) := by
  refine ⟨?_, ?_, ?_⟩
  · intro hl hn
    unfold monte_carlo
    rw [if_pos (by omega)]
    unfold _monte_carlo
    by_cases h0 : n = 0
    · subst h0
      rw [if_neg (by omega), if_pos rfl, if_pos rfl]
      rfl
    · rw [if_pos (by omega), if_neg h0]
      rfl
  · intro hn
    unfold monte_carlo
    rw [if_neg (by omega)]
    have hg : n0_guard n 0 = .ok n := by
      unfold n0_guard; rw [if_pos (by omega)]
    rw [hg]
    dsimp only
    have hd : pyFloorDiv n 0 = .error .zeroDivisionError := by
      unfold pyFloorDiv; rw [if_pos rfl]
    rw [hd]
  · intro hn hl
    unfold monte_carlo
    rw [if_neg (by omega)]
    have hg : n0_guard n limit = .ok n := by
      unfold n0_guard; rw [if_pos (by omega)]
    rw [hg]
    dsimp only
    have hd : pyFloorDiv n limit = .ok (Int.fdiv n limit) := by
      unfold pyFloorDiv; rw [if_neg (by omega)]
    rw [hd]
    dsimp only
    have hfd : (Int.fdiv n limit).toNat = 0 := by
      have hneg : Int.fdiv n limit ≤ 0 := Int.fdiv_nonpos (by omega) (by omega)
      omega
    rw [hfd]
    rfl

/-- witness for C5 amended, at `rnd0` with inputs `(0, 1)`, `(1, 0)` and `(1, -1)`. -/
theorem C5_invalid_inputs_witness :
    ((1:ℤ) ≤ 1 ∧ (0:ℤ) ≤ 0 ∧ (1:ℤ) ≤ 1 ∧ (-1:ℤ) < 0) ∧
    monte_carlo rnd0 0 1 =
      .error (if (0:ℤ) = 0 then PyError.zeroDivisionError else PyError.valueError) ∧
    monte_carlo rnd0 1 0 = .error PyError.zeroDivisionError ∧
    monte_carlo rnd0 1 (-1) = .ok PyFloat.nan :=
  ⟨⟨by decide, by decide, by decide, by decide⟩,
    (C5_invalid_inputs rnd0 0 1).1 (by decide) (by decide),
    (C5_invalid_inputs rnd0 1 0).2.1 (by decide),
    (C5_invalid_inputs rnd0 1 (-1)).2.2 (by decide) (by decide)⟩

/-- C6 counterexample: `monte_carlo rnd0 0 1000000` takes neither of the
claim's two documented behaviors: it fails with ZeroDivisionError, which is
not the `InvalidArgument` kind, and it does not return the value `0.0`. -/
theorem C6_counterexample :
    monte_carlo rnd0 0 1000000 = .error PyError.zeroDivisionError ∧
    PyError.zeroDivisionError ≠ PyError.invalidArgument ∧
    monte_carlo rnd0 0 1000000 ≠ .ok (.val 0) := by
  refine ⟨rfl, by decide, ?_⟩
  intro hcontra
  rw [show monte_carlo rnd0 0 1000000 = .error PyError.zeroDivisionError from rfl] at hcontra
  exact Except.noConfusion hcontra

/-- C6 amended: for every non-negative chunk limit,
`monte_carlo rnd 0 limit` fails with ZeroDivisionError (the `0 / 0` of the
in-circle ratio), not with `InvalidArgument`, and returns no value. -/
theorem C6_zero_sample_count (rnd : ℕ → ℕ → ℚ) (limit : ℤ) (h : 0 ≤ limit) :
    monte_carlo rnd 0 limit = .error PyError.zeroDivisionError := by
  unfold monte_carlo
  rw [if_pos h]
  rfl

/-- witness for C6 amended at `rnd0`, `limit = 5`. -/
theorem C6_zero_sample_count_witness :
    (0:ℤ) ≤ 5 ∧ monte_carlo rnd0 0 5 = .error PyError.zeroDivisionError :=
  ⟨by decide, C6_zero_sample_count rnd0 5 (by decide)⟩

/-- C7: the aggregation step (line 73's `np.average`) is invariant under
permutation of the collected per-chunk results, so task completion order
cannot affect the final estimate. -/
theorem C7_average_perm_invariant (l l' : List ℚ) (h : l.Perm l') :
    average l = average l' := by
  unfold average
  rw [h.sum_eq, h.length_eq]

/-- witness for C7 on the concrete permutation `[1, 2] ~ [2, 1]`. -/
theorem C7_average_perm_invariant_witness :
    (([(1:ℚ), 2]).Perm [2, 1]) ∧ average [1, 2] = average [2, 1] :=
  ⟨List.Perm.swap 2 1 [],
    C7_average_perm_invariant [1, 2] [2, 1] (List.Perm.swap 2 1 [])⟩

/-- C8: whenever the chunking path is taken (`limit < n`), line 66's guard
takes its first branch, so `n0 = n`; the `round` else branch (which would
raise) is unreachable — `monte_carlo` can never fail with TypeError — and
the chunk count is exactly the floor division `n // limit`. -/
theorem C8_guard_unreachable_else (rnd : ℕ → ℕ → ℚ) (n limit : ℤ)
    (h : limit < n) :
    n0_guard n limit = .ok n ∧
    monte_carlo rnd n limit ≠ .error PyError.typeError ∧
    (limit ≠ 0 → pyFloorDiv n limit = .ok (Int.fdiv n limit)) := by
  refine ⟨?_, monte_carlo_ne_typeError rnd n limit, ?_⟩
  · unfold n0_guard
    rw [if_pos (by omega)]
  · intro hz
    unfold pyFloorDiv
    rw [if_neg hz]

/-- witness for C8 at `rnd0`, `n = 2`, `limit = 1`. -/
theorem C8_guard_unreachable_else_witness :
    (1:ℤ) < 2 ∧
    (n0_guard 2 1 = .ok 2 ∧
    monte_carlo rnd0 2 1 ≠ .error PyError.typeError ∧
    ((1:ℤ) ≠ 0 → pyFloorDiv 2 1 = .ok (Int.fdiv 2 1))) :=
  ⟨by decide, C8_guard_unreachable_else rnd0 2 1 (by decide)⟩

/-- C9: for every `n > limit >= 1` the chunked path also returns a value in
the closed interval `[0, 4]`: it is the arithmetic mean of per-chunk
estimates, each of which lies in `[0, 4]`. -/
theorem C9_chunked_in_range (rnd : ℕ → ℕ → ℚ) (n limit : ℤ)
    (h1 : 1 ≤ limit) (h2 : limit < n) :
    ∃ q : ℚ, monte_carlo rnd n limit = .ok (.val q) ∧ 0 ≤ q ∧ q ≤ 4 := by
  have h := monte_carlo_chunked rnd n limit (by omega) h2
  have hk : 1 ≤ (Int.fdiv n limit).toNat := by
    have := fdiv_pos_of_lt n limit (by omega) h2
    omega
  have hne : ((List.range ((Int.fdiv n limit).toNat)).map
      fun i => chunkEstimate (rnd i) limit.toNat) ≠ [] := by
    simp only [ne_eq, List.map_eq_nil_iff, List.range_eq_nil]
    omega
  have hlow : ∀ q ∈ (List.range ((Int.fdiv n limit).toNat)).map
      (fun i => chunkEstimate (rnd i) limit.toNat), 0 ≤ q := by
    intro q hq
    obtain ⟨i, _, rfl⟩ := List.mem_map.mp hq
    exact chunkEstimate_nonneg (rnd i) limit.toNat
  have hhigh : ∀ q ∈ (List.range ((Int.fdiv n limit).toNat)).map
      (fun i => chunkEstimate (rnd i) limit.toNat), q ≤ 4 := by
    intro q hq
    obtain ⟨i, _, rfl⟩ := List.mem_map.mp hq
    exact chunkEstimate_le_four (rnd i) limit.toNat (by omega)
  obtain ⟨hb1, hb2⟩ := mean_mem_bounds _ hne hlow hhigh
  refine ⟨mean _, ?_, hb1, hb2⟩
  rw [h, average_eq_mean _ hne]

/-- witness for C9 at `rnd0`, `n = 2`, `limit = 1`. -/
theorem C9_chunked_in_range_witness :
    ((1:ℤ) ≤ 1 ∧ (1:ℤ) < 2) ∧
    ∃ q : ℚ, monte_carlo rnd0 2 1 = .ok (.val q) ∧ 0 ≤ q ∧ q ≤ 4 :=
  ⟨⟨by decide, by decide⟩, C9_chunked_in_range rnd0 2 1 (by decide) (by decide)⟩

/-- C10: for every `n >= 1` the value `_monte_carlo s n` returns is exactly
`(k / n) * 4` for the integer `k = countInside s n.toNat` with
`0 <= k <= n` — a scaled integer ratio, not an arbitrary number in the
range. -/
theorem C10_result_form (s : ℕ → ℚ) (n : ℤ) (h : 1 ≤ n) :
    ∃ k : ℕ, (k : ℤ) ≤ n ∧ k = countInside s n.toNat ∧
      _monte_carlo s n = .ok ((k : ℚ) / (n : ℚ) * 4) := by
  refine ⟨countInside s n.toNat, ?_, rfl, ?_⟩
  · have := countInside_le s n.toNat
    omega
  · rw [_monte_carlo_pos s n h]
    have hcast : ((n.toNat : ℕ) : ℚ) = (n : ℚ) := by
      exact_mod_cast Int.toNat_of_nonneg (by omega : (0:ℤ) ≤ n)
    rw [chunkEstimate, hcast]

/-- witness for C10 at `s0`, `n = 3`. -/
theorem C10_result_form_witness :
    (1:ℤ) ≤ 3 ∧
    ∃ k : ℕ, (k : ℤ) ≤ 3 ∧ k = countInside s0 (3:ℤ).toNat ∧
      _monte_carlo s0 3 = .ok ((k : ℚ) / ((3:ℤ) : ℚ) * 4) :=
  ⟨by decide, C10_result_form s0 3 (by decide)⟩

end EstimatePI
